import Mathlib

/-!
Verification of the FINS/UDP bridge core against its specification.

The definitions below are a shallow embedding of the Python sources:
  src/OMRON_FINS_PROTOCOL/Fins_domain/mem_address_parser.py  (address parsing)
  src/OMRON_FINS_PROTOCOL/Infrastructure/udp_connection.py   (chunking, multiple_read)
  src/OMRON_FINS_PROTOCOL/components/data_type_mapping.py    (word widths)
  src/main.py                                                (read plan, poll cycle, CSV)
Python ints are modelled as Int (Nat where always non-negative), bytes as
List Nat, strings as String or List Char, dicts as insertion-ordered
association lists, and code that raises as Option-valued functions.
-/

namespace FinsSpec

/-! ### Python primitive helpers -/

/-- Value of a non-empty all-decimal-digit character list, else none.
The digit accumulation mirrors positional decimal reading, so leading
zeros are accepted exactly as Python `int` accepts them. -/
def pyDigits (cs : List Char) : Option Nat :=
  if cs = [] then none
  else if cs.all Char.isDigit then
    some (cs.foldl (fun acc c => 10 * acc + (c.toNat - 48)) 0)
  else none

/-- Python `int(s)` on a string of an optional sign followed by decimal
digits (whitespace and underscore forms do not occur in this code base). -/
def pyInt (cs : List Char) : Option Int :=
  if cs.headD ' ' = '-' then (pyDigits cs.tail).map (fun n => -(n : Int))
  else if cs.headD ' ' = '+' then (pyDigits cs.tail).map (fun n => (n : Int))
  else (pyDigits cs).map (fun n => (n : Int))

/-- Python `s.split(".")` on a character list. -/
def splitOnDot : List Char → List (List Char)
  | [] => [[]]
  | c :: rest =>
    let r := splitOnDot rest
    if c = '.' then [] :: r
    else
      match r with
      | [] => [[c]]
      | h :: t => (c :: h) :: t

/-- Uppercase hex digit for a nibble, as produced by `bytes.hex().upper()`. -/
def hexDigitChar (n : Nat) : Char :=
  if n < 10 then Char.ofNat (48 + n) else Char.ofNat (55 + n)

/-- Python `data.hex().upper()` over a byte list. -/
def hexOfBytes (bs : List Nat) : String :=
  ⟨bs.foldr (fun b acc => hexDigitChar (b / 16 % 16) :: hexDigitChar (b % 16) :: acc) []⟩

/-- Value of a hex digit character (int(_, 16) digit), else none. -/
def hexDigitVal (c : Char) : Option Nat :=
  if c.isDigit then some (c.toNat - 48)
  else if 'A' ≤ c ∧ c ≤ 'F' then some (c.toNat - 55)
  else if 'a' ≤ c ∧ c ≤ 'f' then some (c.toNat - 87)
  else none

/-- Python `int(s, 16)` on plain hex digits (no sign or 0x forms occur here). -/
def hexVal (cs : List Char) : Option Nat :=
  if cs = [] then none
  else cs.foldl (fun acc c =>
    match acc, hexDigitVal c with
    | some a, some d => some (16 * a + d)
    | _, _ => none) (some 0)

/-- Python `str.upper()`. -/
def pyUpper (s : String) : String := ⟨s.data.map Char.toUpper⟩

/-- Python `str.lower()`. -/
def pyLower (s : String) : String := ⟨s.data.map Char.toLower⟩

/-- Python `str(b)` for a bool. -/
def pyBoolStr (b : Bool) : String := if b then "True" else "False"

/-! ### Memory areas (mem_address_parser.py)

The concrete one-byte FINS codes live in `memory_areas.py`
(`FinsPLCMemoryAreas`), which only fixes which distinct area constant each
parse branch selects; the parser logic itself is fully in
`mem_address_parser.py`.  We model the area constants as an inductive type. -/

inductive MemArea where
  | dataMemoryWord | workWord | holdingWord | auxiliaryWord | cioWord
  | timerWord | counterWord
  | emWord (bank : Nat)
  | dataMemoryBit | workBit | holdingBit | auxiliaryBit | cioBit
  | timerFlag | counterFlag
  | emBit (bank : Nat)
  deriving DecidableEq, Repr

/-- Modelled from the spec: `memory_areas.py` is not under src; §6 seed
scenario 3 and §4.3 document the word-area codes 0x82 (data memory) and
0xB1 (work area), the only ones a claim evaluates.  Areas whose code the
spec does not state are mapped to 0. -/
def areaCodeByte : MemArea → Nat
  | .dataMemoryWord => 0x82
  | .workWord => 0xB1
  | _ => 0

/-- em_single_banks: single hex digit bank keys '0'..'9','A'..'F' to the
bank index (mem_address_parser.py lines 29-34; keys are uppercase only,
callers upper-case the char first). -/
def emSingleBank (c : Char) : Option Nat :=
  if c.isDigit then some (c.toNat - 48)
  else if 'A' ≤ c ∧ c ≤ 'F' then some (c.toNat - 55)
  else none

/-- em_double_banks: two-digit bank keys "10".."18" to the bank number
(mem_address_parser.py lines 37-40). -/
def emDoubleBank (cs : List Char) : Option Nat :=
  match cs with
  | [c1, c2] =>
    if c1 = '1' ∧ '0' ≤ c2 ∧ c2 ≤ '8' then some (10 + (c2.toNat - 48)) else none
  | _ => none

/-- _get_address_prefix_info: multi-character prefix "EM" first, else the
single upper-cased first character; the remaining part keeps its case. -/
def getAddressPrefixInfo (addr : List Char) : Option (List Char × List Char) :=
  if (addr.map Char.toUpper).take 2 = ['E', 'M'] then some (['E', 'M'], addr.drop 2)
  else
    match addr with
    | [] => none
    | c :: rest => some ([c.toUpper], rest)

/-- parse_address (mem_address_parser.py lines 225-316) up to but not
including `final_addr.to_bytes(2, "big")`: the selected memory area and
the raw final address (which may be out of the 2-byte range).  The
`except ValueError` branch re-raises unconditionally (its special E
handling is commented out in the source), so a non-integer address part
fails for every prefix. -/
def parse_address_raw (addr : List Char) (offset : Int) : Option (MemArea × Int) :=
  if addr = [] then none
  else
    match getAddressPrefixInfo addr with
    | none => none
    | some (pfx, part) =>
      match pyInt part with
      | none => none
      | some addrNum =>
        if pfx = ['D'] then some (.dataMemoryWord, addrNum + offset)
        else if pfx = ['W'] then some (.workWord, addrNum + offset)
        else if pfx = ['H'] then some (.holdingWord, addrNum + offset)
        else if pfx = ['A'] then some (.auxiliaryWord, addrNum + offset)
        else if pfx = ['Z'] then some (.cioWord, addrNum + offset)
        else if pfx = ['E'] then
          if part.length < 3 then none
          else
            match part with
            | [] => none
            | c :: rest =>
              match emSingleBank c.toUpper with
              | none => none
              | some bank =>
                match pyInt rest with
                | none => none
                | some tailNum => some (.emWord bank, tailNum + offset)
        else if pfx = ['E', 'M'] then
          if part.length < 3 then none
          else if (part.take 2).all Char.isDigit then
            match emDoubleBank (part.take 2) with
            | none => none
            | some bank =>
              match pyInt (part.drop 2) with
              | none => none
              | some tailNum => some (.emWord bank, tailNum + offset)
          else none
        else if pfx = ['T'] then some (.timerWord, addrNum + offset)
        else if pfx = ['C'] then some (.counterWord, addrNum + 2048 + offset)
        else none

/-- Python `final_addr.to_bytes(2, "big")`: succeeds exactly on 0..65535,
yielding the big-endian byte pair. -/
def toBytes2 (n : Int) : Option (Nat × Nat) :=
  if 0 ≤ n ∧ n < 65536 then some (n.toNat / 256, n.toNat % 256) else none

/-- parse_address including the to_bytes step; the word address the parse
dict reports is `int.from_bytes` of those bytes, i.e. the final address. -/
def parse_address (addr : List Char) (offset : Int) : Option (MemArea × Nat) :=
  (parse_address_raw addr offset).bind
    (fun p => (toBytes2 p.2).map (fun _ => (p.1, p.2.toNat)))

/-- parse_bit_address (mem_address_parser.py lines 320-415) up to the
to_bytes step.  `base, bit = address.split(".")` requires exactly two
pieces; the bit must parse and lie in 0..15; a non-integer address part is
tolerated (placeholder 0) only for the single-character 'E' prefix. -/
def parse_bit_address_raw (addr : List Char) (offset : Int) :
    Option (MemArea × Int × Nat) :=
  match splitOnDot addr with
  | [base, bitStr] =>
    match pyInt bitStr with
    | none => none
    | some bitNum =>
      if 0 ≤ bitNum ∧ bitNum ≤ 15 then
        match getAddressPrefixInfo base with
        | none => none
        | some (pfx, part) =>
          match
            (match pyInt part with
             | some n => some n
             | none => if pfx = ['E'] then some 0 else none) with
          | none => none
          | some addrNum =>
            if pfx = ['D'] then some (.dataMemoryBit, addrNum + offset, bitNum.toNat)
            else if pfx = ['W'] then some (.workBit, addrNum + offset, bitNum.toNat)
            else if pfx = ['H'] then some (.holdingBit, addrNum + offset, bitNum.toNat)
            else if pfx = ['A'] then some (.auxiliaryBit, addrNum + offset, bitNum.toNat)
            else if pfx = ['Z'] then some (.cioBit, addrNum + offset, bitNum.toNat)
            else if pfx = ['E'] then
              if part.length < 3 then none
              else
                match part with
                | [] => none
                | c :: rest =>
                  match emSingleBank c.toUpper with
                  | none => none
                  | some bank =>
                    match pyInt rest with
                    | none => none
                    | some tailNum => some (.emBit bank, tailNum + offset, bitNum.toNat)
            else if pfx = ['E', 'M'] then
              if part.length < 3 then none
              else if (part.take 2).all Char.isDigit then
                match emDoubleBank (part.take 2) with
                | none => none
                | some bank =>
                  match pyInt (part.drop 2) with
                  | none => none
                  | some tailNum => some (.emBit bank, tailNum + offset, bitNum.toNat)
              else none
            else if pfx = ['T'] then some (.timerFlag, addrNum + offset, bitNum.toNat)
            else if pfx = ['C'] then some (.counterFlag, addrNum + offset, bitNum.toNat)
            else none
      else none
  | _ => none

/-- parse_bit_address including the to_bytes range check. -/
def parse_bit_address (addr : List Char) (offset : Int) :
    Option (MemArea × Nat × Nat) :=
  (parse_bit_address_raw addr offset).bind
    (fun p => (toBytes2 p.2.1).map (fun _ => (p.1, p.2.1.toNat, p.2.2)))

/-- The fields of the dict returned by FinsAddressParser.parse that the
rest of the system consumes (address_type, memory area, word_address,
bit_number; offset_bytes and fins_format are the big-endian byte pair of
word_address). -/
structure ParsedAddress where
  isBit : Bool
  memoryArea : MemArea
  wordAddress : Nat
  bitNumber : Option Nat
  deriving DecidableEq, Repr

/-- The CIO rewriting step of FinsAddressParser.parse: a leading decimal
digit (after the upper-casing of the first character) gets the 'Z' prefix. -/
def zPrefixed (addr : List Char) : List Char :=
  match addr with
  | [] => []
  | c :: _ => if c.toUpper.isDigit then 'Z' :: addr else addr

/-- FinsAddressParser.parse (lines 95-120): prepend 'Z' when the first
character is a digit (CIO), then dispatch on the presence of a dot. -/
def parseChars (addr : List Char) (offset : Int) : Option ParsedAddress :=
  match addr with
  | [] => none
  | _ :: _ =>
    if (zPrefixed addr).contains '.' then
      match parse_bit_address (zPrefixed addr) offset with
      | none => none
      | some (area, word, bit) => some ⟨true, area, word, some bit⟩
    else
      match parse_address (zPrefixed addr) offset with
      | none => none
      | some (area, word) => some ⟨false, area, word, none⟩

/-- String-level entry point of the parser. -/
def parse (address : String) (offset : Int) : Option ParsedAddress :=
  parseChars address.data offset

/-! ### Read chunking (udp_connection.py lines 327-347) -/

/-- The while loop of _calculate_read_chunks: while remaining > 0 take
`min remaining 990` words at the running offset (MAX_CHUNK_SIZE = 990). -/
def calcReadChunksAux (remaining offset : Nat) : List (Nat × Nat) :=
  if remaining = 0 then []
  else
    let chunkSize := min remaining 990
    (offset, chunkSize) :: calcReadChunksAux (remaining - chunkSize) (offset + chunkSize)
termination_by remaining
decreasing_by simp_wf; omega

/-- FinsUdpConnection._calculate_read_chunks. -/
def calculate_read_chunks (totalWords : Nat) : List (Nat × Nat) :=
  calcReadChunksAux totalWords 0

/-- Checks that a chunk list starts at the given offset, has every size in
1..990, and each offset is the previous offset plus the previous size. -/
def chunkShapeOk : Nat → List (Nat × Nat) → Bool
  | _, [] => true
  | acc, (o, s) :: t => o == acc && 1 ≤ s && s ≤ 990 && chunkShapeOk (acc + s) t

/-! ### Data types and value conversion (udp_connection.py lines 43-59,
components/data_type_mapping.py) -/

/-- Words per item in udp_connection.py's module-level DATA_TYPE_MAPPING
(lines 43-59), the table _validate_data_type consults; none for an
unknown type (FinsDataError). -/
def connWordsPerItem (dt : String) : Option Nat :=
  if dt = "INT16" then some 1
  else if dt = "UINT16" then some 1
  else if dt = "INT32" then some 2
  else if dt = "UINT32" then some 2
  else if dt = "INT64" then some 4
  else if dt = "UINT64" then some 4
  else if dt = "FLOAT" then some 2
  else if dt = "DOUBLE" then some 4
  else if dt = "BCD2DEC" then some 1
  else if dt = "BOOL" then some 1
  else if dt = "CHANNEL" then some 1
  else if dt = "WORD" then some 1
  else if dt = "UDINT" then some 2
  else if dt = "BIN" then some 1
  else if dt = "BITS" then some 1
  else none

/-- _validate_data_type word count: None defaults to INT16, then the
upper-cased name is looked up. -/
def validateDataTypeWords (dt : Option String) : Option Nat :=
  connWordsPerItem (pyUpper (dt.getD "INT16"))

/-- Words per item in components/data_type_mapping.py (the table main.py
imports); same widths plus the extra RAW entry. -/
def componentWordsPerItem (dt : String) : Option Nat :=
  if dt = "RAW" then some 1 else connWordsPerItem dt

/-- Big-endian value of a byte list. -/
def beNat (bs : List Nat) : Nat := bs.foldl (fun acc b => 256 * acc + b) 0

/-- Converted values produced by the conversion functions of
components/conversion.py. -/
inductive ConvValue where
  | intVal (i : Int)
  | rawVal (bs : List Nat)
  deriving DecidableEq, Repr

/-- Modelled from the spec: components/conversion.py is not under src.
Per §4.3, INT16 decodes the two raw bytes as a signed 16-bit big-endian
integer and UINT16 as unsigned; the claims evaluate no other converter,
so the remaining types are modelled as a failing conversion. -/
def convertValue (dt : String) (bs : List Nat) : Option ConvValue :=
  if dt = "INT16" then
    some (.intVal (if beNat bs < 32768 then (beNat bs : Int) else (beNat bs : Int) - 65536))
  else if dt = "UINT16" then some (.intVal (beNat bs))
  else none

/-! ### multiple_read (udp_connection.py lines 747-824) -/

/-- Request data part of MULTIPLE_MEMORY_AREA_READ: the 2-byte item count
followed, per entry in dictionary (insertion) order, by the area code
byte, the big-endian word offset, and the bit number or 0.  A parse
failure aborts the whole call (FinsAddressError). -/
def multipleReadDataPart (items : List (String × String)) : Option (List Nat) :=
  match items.mapM (fun it =>
      match parse it.1 0 with
      | none => none
      | some info =>
        some [areaCodeByte info.memoryArea,
              info.wordAddress / 256, info.wordAddress % 256,
              match info.bitNumber with | some b => b | none => 0]) with
  | none => none
  | some encoded => some ([items.length / 256, items.length % 256] ++ encoded.flatten)

/-- Per-entry outcome recorded in multiple_read's updated_dict. -/
inductive MRVal where
  | insufficientData
  | converted (v : ConvValue)
  | conversionFailed
  deriving DecidableEq, Repr

/-- Response decoding loop of multiple_read on a successful end code
(lines 797-819): for each requested entry, in request order, take
`words_per_item * 2` bytes starting at the running index — the index
advances by exactly that amount — and convert them; an unknown data type
raises FinsDataError, aborting the whole call. -/
def multipleReadDecodeAux (idx : Nat) (items : List (String × String))
    (text : List Nat) : Option (List (String × MRVal)) :=
  match items with
  | [] => some []
  | (code, dt) :: rest =>
    match validateDataTypeWords (some dt) with
    | none => none
    | some wpi =>
      let bytesPer := wpi * 2
      let itemBytes := (text.drop idx).take bytesPer
      let entry :=
        if itemBytes.length < bytesPer then MRVal.insufficientData
        else
          match convertValue (pyUpper dt) itemBytes with
          | some v => MRVal.converted v
          | none => MRVal.conversionFailed
      match multipleReadDecodeAux (idx + bytesPer) rest text with
      | none => none
      | some restDecoded => some ((code, entry) :: restDecoded)

/-- multiple_read response decoding from the start of the response text. -/
def multipleReadDecode (items : List (String × String)) (text : List Nat) :
    Option (List (String × MRVal)) :=
  multipleReadDecodeAux 0 items text

/-! ### Read plan (main.py, PLCTask._initialize_address_groups) -/

/-- One entry of a PLC's address_mappings configuration list.  A missing
data_type key is `none` (mapping.get defaults apply at each use site). -/
structure AddrMapping where
  plc_reg_add : String
  opcua_reg_add : String
  data_type : Option String
  deriving DecidableEq, Repr

instance : Inhabited AddrMapping := ⟨⟨"", "", none⟩⟩

/-- The data type name _initialize_address_groups classifies by:
get('data_type', 'int16'), upper-cased, with BOOL normalized to INT16. -/
def normalizedDtype (m : AddrMapping) : String :=
  let dt := pyUpper (m.data_type.getD "int16")
  if dt = "BOOL" then "INT16" else dt

/-- The classification loop of _initialize_address_groups (lines 158-198):
skip HEARTBEAT entries; send entries whose normalized type is known with
words_per_item = 1 to the one-word pool and everything else (multi-word or
unknown type) to the individual-read list, both in mapping order. -/
def splitMappings : List AddrMapping → List AddrMapping × List AddrMapping
  | [] => ([], [])
  | m :: rest =>
    let (ones, multis) := splitMappings rest
    if m.plc_reg_add = "HEARTBEAT" then (ones, multis)
    else
      match componentWordsPerItem (normalizedDtype m) with
      | some 1 => (m :: ones, multis)
      | some _ => (ones, m :: multis)
      | none => (ones, m :: multis)

/-- The batching loop (lines 200-204): chop a list into consecutive
slices of at most `n` elements, in order.  The loop `for i in
range(0, len(l), n)` runs at most `len(l)` times, which bounds the
recursion depth. -/
def chunksOfFuel : Nat → Nat → List AddrMapping → List (List AddrMapping)
  | 0, _, _ => []
  | fuel + 1, n, l =>
    if l = [] ∨ n = 0 then []
    else (l.take n) :: chunksOfFuel fuel n (l.drop n)

/-- The batching loop with its natural recursion bound. -/
def chunksOf (n : Nat) (l : List AddrMapping) : List (List AddrMapping) :=
  chunksOfFuel l.length n l

/-- PLCTask._initialize_address_groups: the pair
(multiple_read_groups, single_read_addresses), batch size 20. -/
def initializeAddressGroups (mappings : List AddrMapping) :
    List (List AddrMapping) × List AddrMapping :=
  let (ones, multis) := splitMappings mappings
  (chunksOf 20 ones, multis)

/-! ### Poll cycle (main.py, PLCTask._perform_plc_update_cycle and
PLCTask._single_read_fallback) -/

/-- Python dict lookup d.get(k, None) on an insertion-ordered association
list whose stored values are already optional (None stored as none). -/
def dictGet (d : List (String × Option String)) (k : String) : Option String :=
  match d.find? (fun p => p.1 = k) with
  | some p => p.2
  | none => none

/-- Python dict assignment d[k] = v: replace in place if the key exists,
else append. -/
def dictSet (d : List (String × Option String)) (k : String) (v : Option String) :
    List (String × Option String) :=
  if d.any (fun p => p.1 = k) then
    d.map (fun p => if p.1 = k then (k, v) else p)
  else d ++ [(k, v)]

/-- Outcome of one `fins.read` call as _single_read_fallback observes it:
either the coroutine raised, or it returned a result dict with a status
and data bytes (the bytes branch of the value handling; empty bytes and
None data are both falsy and collapse to the empty list). -/
inductive ReadOutcome where
  | raised
  | returned (statusSuccess : Bool) (dataBytes : List Nat)
  deriving DecidableEq, Repr

/-- The read_success flag _single_read_fallback computes: status equals
success and the data is truthy. -/
def readSuccessOf : ReadOutcome → Bool
  | .raised => false
  | .returned s data => s && !data.isEmpty

/-- The per-poller mutable state _single_read_fallback touches. -/
structure PollState where
  failed_to_read : Nat
  threshold : Nat
  plcValues : List (String × Option String)
  stopped : Bool
  queued : List String
  deriving DecidableEq, Repr

/-- PLCTask._single_read_fallback (lines 443-486) for one item: on a
returned result, store the hex string of the data on success and None
otherwise; on a raised exception, increment failed_to_read, and if it now
exceeds the threshold put the too-many-errors message on the queue, set
the stop event and return early (before the plc_values store). -/
def singleReadFallback (plcName : String) (st : PollState) (opcuaTag : String)
    (outcome : ReadOutcome) : PollState × Bool :=
  match outcome with
  | .returned s data =>
    let success := s && !data.isEmpty
    let v : Option String := if success then some (hexOfBytes data) else none
    ({ st with plcValues := dictSet st.plcValues opcuaTag v }, success)
  | .raised =>
    let f := st.failed_to_read + 1
    if f > st.threshold then
      ({ st with failed_to_read := f,
                 queued := st.queued ++ [plcName ++ "-too many errors"],
                 stopped := true }, false)
    else
      ({ st with failed_to_read := f,
                 plcValues := dictSet st.plcValues opcuaTag none }, false)

/-- Outcome of one multiple_read group in a cycle: a success result with
the raw bytes multiple_read decoded per tag (none when the tag is missing
or carries no value key), or a non-success status, or a raised exception —
the latter two fall back to per-item single reads. -/
inductive GroupOutcome where
  | success (itemData : List (String × Option (List Nat)))
  | failure (fallback : List (String × ReadOutcome))
  | raisedExn (fallback : List (String × ReadOutcome))
  deriving Repr

/-- Group handling in _perform_plc_update_cycle (lines 359-408): a
successful multiple_read sets plc_cycle_ok and stores each tag's hex
string (None when absent); otherwise every item of the group goes through
_single_read_fallback and any read success sets plc_cycle_ok. -/
def processGroup (plcName : String) (acc : PollState × Bool) (g : GroupOutcome) :
    PollState × Bool :=
  match g with
  | .success itemData =>
    (itemData.foldl (fun st it =>
        { st with plcValues := dictSet st.plcValues it.1 (it.2.map hexOfBytes) }) acc.1,
     true)
  | .failure fb | .raisedExn fb =>
    fb.foldl (fun acc2 it =>
      ((singleReadFallback plcName acc2.1 it.1 it.2).1,
       acc2.2 || (singleReadFallback plcName acc2.1 it.1 it.2).2)) acc

/-- The read phase of _perform_plc_update_cycle: plc_cycle_ok starts
False, every multiple_read group is processed in plan order, then every
single-read address. -/
def performCycle (plcName : String) (st0 : PollState)
    (groups : List GroupOutcome) (singles : List (String × ReadOutcome)) :
    PollState × Bool :=
  singles.foldl (fun acc it =>
    ((singleReadFallback plcName acc.1 it.1 it.2).1,
     acc.2 || (singleReadFallback plcName acc.1 it.1 it.2).2))
    (groups.foldl (processGroup plcName) (st0, false))

/-- Whether a group outcome is a successful multiple_read. -/
def groupStatusSuccess : GroupOutcome → Bool
  | .success _ => true
  | .failure _ => false
  | .raisedExn _ => false

/-- The per-item fallback reads a group outcome triggers. -/
def fallbacksOf : GroupOutcome → List (String × ReadOutcome)
  | .success _ => []
  | .failure fb | .raisedExn fb => fb

/-- The individual reads a cycle performs outside successful groups: the
fallback reads of every failed or raising group, then the single-read
addresses, in plan order. -/
def individualReads (groups : List GroupOutcome)
    (singles : List (String × ReadOutcome)) : List (String × ReadOutcome) :=
  (groups.map fallbacksOf).flatten ++ singles

/-! ### Sinks (main.py, _write_to_csv_async and _write_to_opcua_async) -/

/-- One CSV cell of _write_to_csv_async (lines 278-289): the HEARTBEAT
mapping reports str(plc_cycle_ok); every other mapping reports
str(plc_values.get(tag, None)) or the literal NaN when that is None. -/
def csvCell (m : AddrMapping) (plcValues : List (String × Option String))
    (plcCycleOk : Bool) : String :=
  if m.plc_reg_add = "HEARTBEAT" then pyBoolStr plcCycleOk
  else
    match dictGet plcValues m.opcua_reg_add with
    | some v => v
    | none => "NaN"

/-- The CSV data row: the timestamp followed by one cell per address
mapping in original mapping order. -/
def csvRow (ts : String) (mappings : List AddrMapping)
    (plcValues : List (String × Option String)) (plcCycleOk : Bool) : List String :=
  ts :: mappings.map (fun m => csvCell m plcValues plcCycleOk)

/-- PLCTask.csv_header (line 77): Timestamp then the OPC UA tag of every
mapping in order. -/
def csvHeader (mappings : List AddrMapping) : List String :=
  "Timestamp" :: mappings.map (fun m => m.opcua_reg_add)

/-- A Python value as the OPC UA writer handles it. -/
inductive PyVal where
  | str (s : String)
  | bool (b : Bool)
  | int (i : Int)
  deriving DecidableEq, Repr

/-- Python str() of such a value. -/
def pyStr : PyVal → String
  | .str s => s
  | .bool b => pyBoolStr b
  | .int i => toString i

/-- PLCTask._get_bit_number_from_address: the integer after the first dot,
or 0 without a dot or on a parse failure.  (A negative bit would make the
subsequent shift raise, which the extractor catches into 0; Int.toNat
lands on the same value.) -/
def getBitNumberFromAddress (addr : String) : Nat :=
  match splitOnDot addr.data with
  | _ :: second :: _ =>
    match pyInt second with
    | some i => i.toNat
    | none => 0
  | _ => 0

/-- PLCTask._extract_bit_value_from_hex: 0 for strings shorter than 4
characters or non-hex prefixes, else bit `bit` of the value of the first
four hex characters. -/
def extractBitValueFromHex (s : String) (bit : Nat) : Nat :=
  if s.data.length < 4 then 0
  else
    match hexVal (s.data.take 4) with
    | some w => w / 2 ^ bit % 2
    | none => 0

/-- The value _write_to_opcua_async (lines 316-344) pushes for one
mapping: plc_cycle_ok for the HEARTBEAT tag, else the stored value; None
values are skipped; a declared bool type with a dotted address is reduced
to its bit, and a declared string type gets the timestamp suffix. -/
def opcuaValueFor (m : AddrMapping) (plcValues : List (String × Option String))
    (plcCycleOk : Bool) (timeStr : String) : Option PyVal :=
  let pv : Option PyVal :=
    if m.plc_reg_add = "HEARTBEAT" then some (.bool plcCycleOk)
    else (dictGet plcValues m.opcua_reg_add).map .str
  match pv with
  | none => none
  | some v =>
    let dt := pyLower (m.data_type.getD "")
    if dt = "bool" ∧ m.plc_reg_add.data.contains '.' then
      some (.int (extractBitValueFromHex (pyStr v) (getBitNumberFromAddress m.plc_reg_add)))
    else if dt = "string" then some (.str (pyStr v ++ "&&" ++ timeStr))
    else some v

/-! ### Helper lemmas: offset linearity of the parser -/

theorem parse_address_raw_offset (addr : List Char) (off : Int) :
    parse_address_raw addr off =
      (parse_address_raw addr 0).map (fun p => (p.1, p.2 + off)) := by
  unfold parse_address_raw
  by_cases h0 : addr = []
  · simp [h0]
  · simp only [if_neg h0]
    cases hpi : getAddressPrefixInfo addr with
    | none => simp
    | some pr =>
      obtain ⟨pfx, part⟩ := pr
      cases hn : pyInt part with
      | none => simp [hn]
      | some addrNum =>
        simp only [hn]
        by_cases hD : pfx = ['D']
        · simp [hD]
        simp only [if_neg hD]
        by_cases hW : pfx = ['W']
        · simp [hW]
        simp only [if_neg hW]
        by_cases hH : pfx = ['H']
        · simp [hH]
        simp only [if_neg hH]
        by_cases hA : pfx = ['A']
        · simp [hA]
        simp only [if_neg hA]
        by_cases hZ : pfx = ['Z']
        · simp [hZ]
        simp only [if_neg hZ]
        by_cases hE : pfx = ['E']
        · simp only [if_pos hE]
          by_cases hlen : part.length < 3
          · simp [hlen]
          · simp only [if_neg hlen]
            cases part with
            | nil => simp at hlen
            | cons c rest =>
              cases hb : emSingleBank c.toUpper with
              | none => simp [hb]
              | some bank =>
                cases ht : pyInt rest with
                | none => simp [hb, ht]
                | some t => simp [hb, ht]
        simp only [if_neg hE]
        by_cases hEM : pfx = ['E', 'M']
        · simp only [if_pos hEM]
          by_cases hlen : part.length < 3
          · simp [hlen]
          · simp only [if_neg hlen]
            by_cases hdig : (part.take 2).all Char.isDigit
            · simp only [if_pos hdig]
              cases hb : emDoubleBank (part.take 2) with
              | none => simp [hb]
              | some bank =>
                cases ht : pyInt (part.drop 2) with
                | none => simp [hb, ht]
                | some t => simp [hb, ht]
            · simp [hdig]
        simp only [if_neg hEM]
        by_cases hT : pfx = ['T']
        · simp [hT]
        simp only [if_neg hT]
        by_cases hC : pfx = ['C']
        · simp [hC]
        simp [hC]

theorem parse_bit_address_raw_offset (addr : List Char) (off : Int) :
    parse_bit_address_raw addr off =
      (parse_bit_address_raw addr 0).map (fun p => (p.1, p.2.1 + off, p.2.2)) := by
  unfold parse_bit_address_raw
  cases hsp : splitOnDot addr with
  | nil => simp
  | cons a t =>
    cases t with
    | nil => simp
    | cons b t2 =>
      cases t2 with
      | cons x t3 => simp
      | nil =>
        cases hbn : pyInt b with
        | none => simp [hbn]
        | some bitNum =>
          simp only [hbn]
          by_cases hrange : 0 ≤ bitNum ∧ bitNum ≤ 15
          · simp only [if_pos hrange]
            cases hpi : getAddressPrefixInfo a with
            | none => simp
            | some pr =>
              obtain ⟨pfx, part⟩ := pr
              cases hn : pyInt part with
              | some addrNum =>
                simp only [hn]
                by_cases hD : pfx = ['D']
                · simp [hD]
                simp only [if_neg hD]
                by_cases hW : pfx = ['W']
                · simp [hW]
                simp only [if_neg hW]
                by_cases hH : pfx = ['H']
                · simp [hH]
                simp only [if_neg hH]
                by_cases hA : pfx = ['A']
                · simp [hA]
                simp only [if_neg hA]
                by_cases hZ : pfx = ['Z']
                · simp [hZ]
                simp only [if_neg hZ]
                by_cases hE : pfx = ['E']
                · simp only [if_pos hE]
                  by_cases hlen : part.length < 3
                  · simp [hlen]
                  · simp only [if_neg hlen]
                    cases part with
                    | nil => simp at hlen
                    | cons c rest =>
                      cases hb2 : emSingleBank c.toUpper with
                      | none => simp [hb2]
                      | some bank =>
                        cases ht : pyInt rest with
                        | none => simp [hb2, ht]
                        | some tn => simp [hb2, ht]
                simp only [if_neg hE]
                by_cases hEM : pfx = ['E', 'M']
                · simp only [if_pos hEM]
                  by_cases hlen : part.length < 3
                  · simp [hlen]
                  · simp only [if_neg hlen]
                    by_cases hdig : (part.take 2).all Char.isDigit
                    · simp only [if_pos hdig]
                      cases hb2 : emDoubleBank (part.take 2) with
                      | none => simp [hb2]
                      | some bank =>
                        cases ht : pyInt (part.drop 2) with
                        | none => simp [hb2, ht]
                        | some tn => simp [hb2, ht]
                    · simp [hdig]
                simp only [if_neg hEM]
                by_cases hT : pfx = ['T']
                · simp [hT]
                simp only [if_neg hT]
                by_cases hC : pfx = ['C']
                · simp [hC]
                simp [hC]
              | none =>
                simp only [hn]
                by_cases hE : pfx = ['E']
                · simp only [if_pos hE, hE]
                  by_cases hlen : part.length < 3
                  · simp [hlen]
                  · simp only [if_neg hlen]
                    cases part with
                    | nil => simp at hlen
                    | cons c rest =>
                      cases hb2 : emSingleBank c.toUpper with
                      | none => simp [hb2]
                      | some bank =>
                        cases ht : pyInt rest with
                        | none => simp [hb2, ht]
                        | some tn => simp [hb2, ht]
                · simp [hE]
          · simp [hrange]

theorem toBytes2_some (f : Int) (h1 : 0 ≤ f) (h2 : f < 65536) :
    toBytes2 f = some (f.toNat / 256, f.toNat % 256) := by
  unfold toBytes2
  rw [if_pos ⟨h1, h2⟩]

theorem toBytes2_bounds (f : Int) (p : Nat × Nat) (h : toBytes2 f = some p) :
    0 ≤ f ∧ f < 65536 := by
  unfold toBytes2 at h
  by_cases hb : 0 ≤ f ∧ f < 65536
  · exact hb
  · rw [if_neg hb] at h; exact absurd h (by simp)

theorem parse_address_offset (addr : List Char) (off : Int) (area : MemArea) (w : Nat)
    (h : parse_address addr 0 = some (area, w))
    (h1 : 0 ≤ (w : Int) + off) (h2 : (w : Int) + off < 65536) :
    parse_address addr off = some (area, ((w : Int) + off).toNat) := by
  unfold parse_address at h ⊢
  cases hraw : parse_address_raw addr 0 with
  | none => simp [hraw] at h
  | some p =>
    obtain ⟨a0, f0⟩ := p
    simp only [hraw, Option.some_bind] at h
    cases htb : toBytes2 f0 with
    | none => simp [htb] at h
    | some bp =>
      simp only [htb, Option.map_some', Option.some.injEq, Prod.mk.injEq] at h
      obtain ⟨ha, hw⟩ := h
      obtain ⟨hf1, hf2⟩ := toBytes2_bounds f0 bp htb
      have hfw : (w : Int) = f0 := by
        rw [← hw]; exact Int.toNat_of_nonneg hf1
      rw [parse_address_raw_offset addr off, hraw]
      simp only [Option.map_some', Option.some_bind]
      rw [toBytes2_some (f0 + off) (by omega) (by omega)]
      simp only [Option.map_some', Option.some.injEq, Prod.mk.injEq]
      exact ⟨ha, by omega⟩

theorem parse_bit_address_offset (addr : List Char) (off : Int) (area : MemArea)
    (w bit : Nat)
    (h : parse_bit_address addr 0 = some (area, w, bit))
    (h1 : 0 ≤ (w : Int) + off) (h2 : (w : Int) + off < 65536) :
    parse_bit_address addr off = some (area, ((w : Int) + off).toNat, bit) := by
  unfold parse_bit_address at h ⊢
  cases hraw : parse_bit_address_raw addr 0 with
  | none => simp [hraw] at h
  | some p =>
    obtain ⟨a0, f0, b0⟩ := p
    simp only [hraw, Option.some_bind] at h
    cases htb : toBytes2 f0 with
    | none => simp [htb] at h
    | some bp =>
      simp only [htb, Option.map_some', Option.some.injEq, Prod.mk.injEq] at h
      obtain ⟨ha, hw, hb⟩ := h
      obtain ⟨hf1, hf2⟩ := toBytes2_bounds f0 bp htb
      have hfw : (w : Int) = f0 := by
        rw [← hw]; exact Int.toNat_of_nonneg hf1
      rw [parse_bit_address_raw_offset addr off, hraw]
      simp only [Option.map_some', Option.some_bind]
      rw [toBytes2_some (f0 + off) (by omega) (by omega)]
      simp only [Option.map_some', Option.some.injEq, Prod.mk.injEq]
      exact ⟨ha, by omega, hb⟩

/-- C3: for every address string on which parse succeeds at offset 0, and
every additional offset keeping the shifted word address in 16 bits, parse
at that offset returns the same kind, memory area and bit number, and the
word address shifted by the offset (the parser is offset-linear). -/
theorem claim_C3_offset_linear (addr : String) (off : Int) (r0 : ParsedAddress)
    (h : parse addr 0 = some r0)
    (h1 : 0 ≤ (r0.wordAddress : Int) + off)
    (h2 : (r0.wordAddress : Int) + off < 65536) :
    parse addr off =
      some ⟨r0.isBit, r0.memoryArea, ((r0.wordAddress : Int) + off).toNat, r0.bitNumber⟩ := by
  unfold parse parseChars at h ⊢
  cases hdata : addr.data with
  | nil => simp only [hdata] at h; exact absurd h (by simp)
  | cons c tl =>
    simp only [hdata] at h ⊢
    by_cases hdot : ((zPrefixed (c :: tl)).contains '.') = true
    · simp only [hdot, if_pos] at h ⊢
      cases hp : parse_bit_address (zPrefixed (c :: tl)) 0 with
      | none => simp only [hp] at h; exact absurd h (by simp)
      | some p =>
        obtain ⟨a0, w0, b0⟩ := p
        simp only [hp, Option.some.injEq] at h
        subst h
        rw [parse_bit_address_offset _ off a0 w0 b0 hp h1 h2]
    · simp only [Bool.not_eq_true] at hdot
      simp only [hdot, Bool.false_eq_true, if_false] at h ⊢
      cases hp : parse_address (zPrefixed (c :: tl)) 0 with
      | none => simp only [hp] at h; exact absurd h (by simp)
      | some p =>
        obtain ⟨a0, w0⟩ := p
        simp only [hp, Option.some.injEq] at h
        subst h
        rw [parse_address_offset _ off a0 w0 hp h1 h2]


/-- Witness for C3 at address D100 with offset 5. -/
theorem claim_C3_offset_linear_witness :
    parse "D100" 0 = some ⟨false, .dataMemoryWord, 100, none⟩ ∧
    0 ≤ ((100 : Nat) : Int) + 5 ∧ ((100 : Nat) : Int) + 5 < 65536 ∧
    parse "D100" 5 =
      some ⟨false, .dataMemoryWord, (((100 : Nat) : Int) + 5).toNat, none⟩ :=
  ⟨by decide, by decide, by decide,
   claim_C3_offset_linear "D100" 5 ⟨false, .dataMemoryWord, 100, none⟩
     (by decide) (by decide) (by decide)⟩


/-! ### Helper lemmas: chunking -/

theorem calcReadChunksAux_spec (r : Nat) : ∀ o : Nat,
    ((calcReadChunksAux r o).map Prod.snd).sum = r ∧
    chunkShapeOk o (calcReadChunksAux r o) = true := by
  induction r using Nat.strong_induction_on with
  | _ r ih =>
    intro o
    rw [calcReadChunksAux]
    by_cases hr : r = 0
    · simp [hr, chunkShapeOk]
    · have h2 : r - min r 990 < r := by omega
      obtain ⟨hsum, hshape⟩ := ih (r - min r 990) h2 (o + min r 990)
      simp only [if_neg hr, List.map_cons, List.sum_cons, chunkShapeOk, hsum, hshape]
      refine ⟨by omega, ?_⟩
      simp only [Bool.and_true, beq_self_eq_true, Bool.true_and, Bool.and_eq_true,
        decide_eq_true_eq]
      omega

/-- C6: for every word count W at least 1, _calculate_read_chunks returns
chunks whose sizes sum to W, with each size in 1..990 and each offset
equal to the sum of the preceding sizes starting at 0; in particular 2000
words yield the chunks (0,990), (990,990), (1980,20). -/
theorem claim_C6_chunking :
    (∀ W : Nat, 1 ≤ W →
      ((calculate_read_chunks W).map Prod.snd).sum = W ∧
      chunkShapeOk 0 (calculate_read_chunks W) = true) ∧
    calculate_read_chunks 2000 = [(0, 990), (990, 990), (1980, 20)] := by
  constructor
  · intro W _
    exact calcReadChunksAux_spec W 0
  · unfold calculate_read_chunks
    rw [calcReadChunksAux]
    norm_num
    rw [calcReadChunksAux]
    norm_num
    rw [calcReadChunksAux]
    norm_num
    rw [calcReadChunksAux]
    norm_num

/-- C1: evaluation of multiple_read at the claim example
(D100 : INT16, W0 : INT16).  The request payload equals the claimed bytes,
but the response split takes the first words_per_item*2 bytes per record
and advances by exactly that amount, never skipping the per-record
area-code byte: on response text 82 12 34 B1 00 01 the code decodes D100
from bytes 82 12 (signed -32238) and W0 from bytes 34 B1 (13489), not the
claimed 0x1234 and 0x0001. -/
theorem claim_C1_multiple_read_eval :
    multipleReadDataPart [("D100", "INT16"), ("W0", "INT16")] =
      some [0x00, 0x02, 0x82, 0x00, 0x64, 0x00, 0xB1, 0x00, 0x00, 0x00] ∧
    multipleReadDecode [("D100", "INT16"), ("W0", "INT16")]
        [0x82, 0x12, 0x34, 0xB1, 0x00, 0x01] =
      some [("D100", .converted (.intVal (-32238))),
            ("W0", .converted (.intVal 13489))] ∧
    (-32238 : Int) ≠ 0x1234 ∧ (13489 : Int) ≠ 0x0001 := by
  exact ⟨by decide, by decide, by decide, by decide⟩

/-- C4 counterexample: parse("E10200", 0) selects the single-digit bank
EM1 with word offset 200, not the claimed two-digit bank EM10. -/
theorem claim_C4_counterexample :
    parse "E10200" 0 = some ⟨false, .emWord 1, 200, none⟩ ∧
    MemArea.emWord 1 ≠ MemArea.emWord 10 :=
  ⟨by decide, by decide⟩

/-- C5: parse("EA050", 0) fails, because parse_address runs
int(addr_part) before the per-prefix branches and its except branch
re-raises unconditionally, so the hex bank letter A aborts the word
parse; the claimed (EMA word, 50) result is unreachable. -/
theorem claim_C5_ea050_eval : parse "EA050" 0 = none := by decide


/-- Witness for C6 at W = 2000. -/
theorem claim_C6_chunking_witness :
    1 ≤ 2000 ∧
    (((calculate_read_chunks 2000).map Prod.snd).sum = 2000 ∧
      chunkShapeOk 0 (calculate_read_chunks 2000) = true) :=
  ⟨by omega, claim_C6_chunking.1 2000 (by omega)⟩


/-! ### Helper definitions and lemmas: the read plan -/

/-- A mapping whose classification data type is known with one word per
item (after the BOOL normalization). -/
def isOneWordMapping (m : AddrMapping) : Bool :=
  componentWordsPerItem (normalizedDtype m) == some 1

/-- A mapping that is not the HEARTBEAT sentinel. -/
def nonHeartbeat (m : AddrMapping) : Bool :=
  m.plc_reg_add ≠ "HEARTBEAT"

theorem splitMappings_eq (l : List AddrMapping) :
    splitMappings l =
      ((l.filter nonHeartbeat).filter isOneWordMapping,
       (l.filter nonHeartbeat).filter (fun m => !(isOneWordMapping m))) := by
  induction l with
  | nil => rfl
  | cons m rest ih =>
    by_cases hhb : m.plc_reg_add = "HEARTBEAT"
    · have hnb : nonHeartbeat m = false := by simp [nonHeartbeat, hhb]
      unfold splitMappings
      rw [ih]
      simp [hhb, List.filter_cons, hnb]
    · have hnb : nonHeartbeat m = true := by simp [nonHeartbeat, hhb]
      unfold splitMappings
      rw [ih]
      cases hw : componentWordsPerItem (normalizedDtype m) with
      | none =>
        have h1 : isOneWordMapping m = false := by simp [isOneWordMapping, hw]
        simp [hhb, hw, List.filter_cons, hnb, h1]
      | some k =>
        by_cases hk : k = 1
        · subst hk
          have h1 : isOneWordMapping m = true := by simp [isOneWordMapping, hw]
          simp [hhb, hw, List.filter_cons, hnb, h1]
        · have h1 : isOneWordMapping m = false := by
            simp [isOneWordMapping, hw, hk]
          cases k with
          | zero => simp [hhb, hw, List.filter_cons, hnb, h1]
          | succ k2 =>
            cases k2 with
            | zero => exact absurd rfl hk
            | succ k3 => simp [hhb, hw, List.filter_cons, hnb, h1]

theorem chunksOfFuel_flatten : ∀ (fuel n : Nat) (l : List AddrMapping),
    l.length ≤ fuel → 0 < n → (chunksOfFuel fuel n l).flatten = l := by
  intro fuel
  induction fuel with
  | zero =>
    intro n l hlen _
    have : l = [] := List.eq_nil_of_length_eq_zero (by omega)
    simp [this, chunksOfFuel]
  | succ fuel ih =>
    intro n l hlen hn
    unfold chunksOfFuel
    by_cases h0 : l = [] ∨ n = 0
    · rcases h0 with h0 | h0
      · simp [h0]
      · omega
    · have hl : l ≠ [] := fun he => h0 (Or.inl he)
      have hpos : 0 < l.length := List.length_pos.mpr hl
      simp only [if_neg h0, List.flatten_cons]
      rw [ih n (l.drop n) (by simp [List.length_drop]; omega) hn]
      exact List.take_append_drop n l

theorem chunksOfFuel_chunk_length : ∀ (fuel n : Nat) (l : List AddrMapping),
    ∀ g ∈ chunksOfFuel fuel n l, g.length ≤ n := by
  intro fuel
  induction fuel with
  | zero => intro n l g hg; simp [chunksOfFuel] at hg
  | succ fuel ih =>
    intro n l g hg
    unfold chunksOfFuel at hg
    by_cases h0 : l = [] ∨ n = 0
    · simp [if_pos h0] at hg
    · simp only [if_neg h0, List.mem_cons] at hg
      rcases hg with hg | hg
      · subst hg
        simp [List.length_take]
      · exact ih n (l.drop n) g hg

theorem count_filter_split (p : AddrMapping → Bool) (l : List AddrMapping)
    (a : AddrMapping) :
    (l.filter p).count a + (l.filter (fun x => !(p x))).count a = l.count a := by
  induction l with
  | nil => simp
  | cons x xs ih =>
    simp only [List.filter_cons]
    by_cases hp : p x = true
    · simp only [hp, if_true, Bool.not_true, Bool.false_eq_true, if_false]
      by_cases hax : x = a
      · subst hax
        simp [List.count_cons]
        omega
      · simp [List.count_cons, hax]
        omega
    · have hp2 : p x = false := by simp [hp]
      simp only [hp2, Bool.false_eq_true, if_false, Bool.not_false, if_true]
      by_cases hax : x = a
      · subst hax
        simp [List.count_cons]
        omega
      · simp [List.count_cons, hax]
        omega

/-- C2: after _initialize_address_groups, the flattened multiple-read
groups are exactly the non-HEARTBEAT one-word mappings in order, the
single-read list is exactly the non-HEARTBEAT multi-word-or-unknown
mappings in order, every group has at most 20 entries all of one-word
type, and every non-HEARTBEAT mapping appears across the plan exactly as
often as in the input. -/
theorem claim_C2_read_plan (mappings : List AddrMapping) :
    ((initializeAddressGroups mappings).1.flatten =
      (mappings.filter nonHeartbeat).filter isOneWordMapping) ∧
    ((initializeAddressGroups mappings).2 =
      (mappings.filter nonHeartbeat).filter (fun m => !(isOneWordMapping m))) ∧
    (∀ g ∈ (initializeAddressGroups mappings).1,
      g.length ≤ 20 ∧ ∀ m ∈ g, isOneWordMapping m = true) ∧
    (∀ m : AddrMapping, m.plc_reg_add ≠ "HEARTBEAT" →
      ((initializeAddressGroups mappings).1.flatten ++
        (initializeAddressGroups mappings).2).count m = mappings.count m) := by
  have hsplit := splitMappings_eq mappings
  have hgroups : (initializeAddressGroups mappings).1 =
      chunksOf 20 ((mappings.filter nonHeartbeat).filter isOneWordMapping) := by
    unfold initializeAddressGroups
    rw [hsplit]
  have hsingles : (initializeAddressGroups mappings).2 =
      (mappings.filter nonHeartbeat).filter (fun m => !(isOneWordMapping m)) := by
    unfold initializeAddressGroups
    rw [hsplit]
  have hflat : (initializeAddressGroups mappings).1.flatten =
      (mappings.filter nonHeartbeat).filter isOneWordMapping := by
    rw [hgroups]
    exact chunksOfFuel_flatten _ 20 _ (by omega) (by omega)
  refine ⟨hflat, hsingles, ?_, ?_⟩
  · intro g hg
    rw [hgroups] at hg
    constructor
    · exact chunksOfFuel_chunk_length _ 20 _ g hg
    · intro m hm
      have hmem : m ∈ (chunksOf 20
          ((mappings.filter nonHeartbeat).filter isOneWordMapping)).flatten := by
        rw [List.mem_flatten]
        exact ⟨g, hg, hm⟩
      unfold chunksOf at hmem
      rw [chunksOfFuel_flatten _ 20 _ (by omega) (by omega)] at hmem
      exact List.of_mem_filter hmem
  · intro m hm
    rw [hflat, hsingles, List.count_append, count_filter_split]
    have hnb : nonHeartbeat m = true := by
      simp [nonHeartbeat, hm]
    rw [List.count_filter]
    exact hnb

/-- The seed-scenario mapping list: 25 one-word INT16 tags, one FLOAT
tag, and the HEARTBEAT sentinel. -/
def c2WitnessMappings : List AddrMapping :=
  ((List.range 25).map (fun i =>
    AddrMapping.mk ("D" ++ toString i) ("tag" ++ toString i) (some "int16"))) ++
  [AddrMapping.mk "D200" "ftag" (some "float"), AddrMapping.mk "HEARTBEAT" "hb" (some "bool")]

/-- Witness for C2 at the seed scenario: the plan is 2 groups (20+5) and
1 individual read, and the FLOAT entry appears exactly once. -/
theorem claim_C2_read_plan_witness :
    (AddrMapping.mk "D200" "ftag" (some "float")).plc_reg_add ≠ "HEARTBEAT" ∧
    ((initializeAddressGroups c2WitnessMappings).1.flatten ++
        (initializeAddressGroups c2WitnessMappings).2).count
      (AddrMapping.mk "D200" "ftag" (some "float")) =
      c2WitnessMappings.count (AddrMapping.mk "D200" "ftag" (some "float")) ∧
    (initializeAddressGroups c2WitnessMappings).1.map List.length = [20, 5] ∧
    (initializeAddressGroups c2WitnessMappings).2.length = 1 :=
  ⟨by decide,
   (claim_C2_read_plan c2WitnessMappings).2.2.2
     (AddrMapping.mk "D200" "ftag" (some "float")) (by decide),
   by decide, by decide⟩


/-! ### Helper lemmas: the poller dictionary -/

theorem dictGet_dictSet (d : List (String × Option String)) (k : String)
    (v : Option String) : dictGet (dictSet d k v) k = v := by
  unfold dictGet dictSet
  by_cases hany : d.any (fun p => p.1 = k) = true
  · rw [if_pos hany]
    induction d with
    | nil => simp at hany
    | cons p rest ih =>
      by_cases hp : p.1 = k
      · simp [List.find?, hp]
      · have hany2 : rest.any (fun q => q.1 = k) = true := by
          simp only [List.any_cons] at hany
          rcases Bool.or_eq_true_iff.mp hany with h1 | h1
          · exact absurd (of_decide_eq_true h1) hp
          · exact h1
        have hdp : decide (p.1 = k) = false := by simp [hp]
        simp only [List.map_cons, if_neg hp, List.find?, hdp]
        exact ih hany2
  · rw [if_neg hany]
    have hfind : d.find? (fun p => p.1 = k) = none := by
      rw [List.find?_eq_none]
      intro p hp
      simp only [List.any_eq_true] at hany
      simp only [decide_eq_true_eq]
      intro he
      exact hany ⟨p, hp, by simp [he]⟩
    rw [List.find?_append, hfind]
    simp [List.find?]

/-- C7 as amended: a failed individual read leaves the tag null in the
cycle sample (stored as None, or left absent — read back as null — when
the failing read crosses the threshold and returns early); failed_to_read
increments exactly on reads that raise an exception, not on reads that
return an error status; the stop event is set and the too-many-errors
message enqueued exactly when a raising read pushes the counter past the
threshold; and the returned read_success flag is status-success-with-data. -/
theorem claim_C7_failure_handling (name tag : String) (st : PollState)
    (outcome : ReadOutcome) :
    (dictGet st.plcValues tag = none → readSuccessOf outcome = false →
      dictGet (singleReadFallback name st tag outcome).1.plcValues tag = none) ∧
    ((singleReadFallback name st tag outcome).1.failed_to_read =
      st.failed_to_read + (if outcome = .raised then 1 else 0)) ∧
    ((singleReadFallback name st tag outcome).1.stopped =
      (st.stopped || (decide (outcome = .raised) &&
        decide (st.threshold < st.failed_to_read + 1)))) ∧
    ((singleReadFallback name st tag outcome).1.queued =
      st.queued ++ (if outcome = .raised ∧ st.threshold < st.failed_to_read + 1
        then [name ++ "-too many errors"] else [])) ∧
    ((singleReadFallback name st tag outcome).2 = readSuccessOf outcome) := by
  cases outcome with
  | raised =>
    unfold singleReadFallback
    by_cases hth : st.failed_to_read + 1 > st.threshold
    · simp only [if_pos hth]
      refine ⟨fun hget _ => hget, by simp, ?_, ?_, by simp [readSuccessOf]⟩
      · have h2 : decide (st.threshold < st.failed_to_read + 1) = true := by
          simp [hth]
        simp [h2]
      · rw [if_pos ⟨trivial, hth⟩]
    · simp only [if_neg hth]
      refine ⟨fun hget _ => ?_, by simp, ?_, ?_, by simp [readSuccessOf]⟩
      · exact dictGet_dictSet st.plcValues tag none
      · have h2 : decide (st.threshold < st.failed_to_read + 1) = false := by
          simp [hth]
        simp [h2]
      · have hcond : ¬(True ∧ st.threshold < st.failed_to_read + 1) :=
          fun hc => hth hc.2
        rw [if_neg hcond]
        simp
  | returned s data =>
    unfold singleReadFallback
    have hne : (ReadOutcome.returned s data = ReadOutcome.raised) = False := by
      simp
    refine ⟨fun hget hrs => ?_, by simp [hne], by simp [hne], ?_, by simp [readSuccessOf]⟩
    · simp only [readSuccessOf] at hrs
      simp only [hrs, Bool.false_eq_true, if_false]
      exact dictGet_dictSet st.plcValues tag none
    · simp [hne]

/-- C7 counterexample: a read returning status error (no exception) is a
failed read — the tag is set to None — yet failed_to_read stays at 0
rather than incrementing to 1 as the claim requires. -/
theorem claim_C7_counterexample :
    readSuccessOf (.returned false []) = false ∧
    (singleReadFallback "PLC1" ⟨0, 3, [], false, []⟩ "tag1"
      (.returned false [])).1.plcValues = [("tag1", none)] ∧
    (singleReadFallback "PLC1" ⟨0, 3, [], false, []⟩ "tag1"
      (.returned false [])).1.failed_to_read = 0 ∧
    ¬ (0 : Nat) = 0 + 1 := by
  exact ⟨by decide, by decide, by decide, by decide⟩

/-- Witness for C7 (amended) at a raising read on a fresh state. -/
theorem claim_C7_failure_handling_witness :
    dictGet ([] : List (String × Option String)) "t" = none ∧
    readSuccessOf .raised = false ∧
    dictGet (singleReadFallback "P" ⟨0, 3, [], false, []⟩ "t" .raised).1.plcValues
      "t" = none :=
  ⟨rfl, rfl,
   (claim_C7_failure_handling "P" "t" ⟨0, 3, [], false, []⟩ .raised).1 rfl rfl⟩


/-! ### Helper lemmas: the poll cycle -/

theorem singleReadFallback_snd (name tag : String) (st : PollState)
    (outcome : ReadOutcome) :
    (singleReadFallback name st tag outcome).2 = readSuccessOf outcome := by
  cases outcome with
  | raised =>
    unfold singleReadFallback readSuccessOf
    by_cases hth : st.failed_to_read + 1 > st.threshold
    · rw [if_pos hth]
    · rw [if_neg hth]
  | returned s data => rfl

theorem fallbackFold_snd (name : String) (fb : List (String × ReadOutcome)) :
    ∀ (acc : PollState × Bool),
      (fb.foldl (fun acc2 it =>
        ((singleReadFallback name acc2.1 it.1 it.2).1,
         acc2.2 || (singleReadFallback name acc2.1 it.1 it.2).2)) acc).2 =
      (acc.2 || fb.any (fun it => readSuccessOf it.2)) := by
  induction fb with
  | nil => intro acc; simp
  | cons it fb ih =>
    intro acc
    rw [List.foldl_cons, ih]
    simp only [List.any_cons]
    rw [singleReadFallback_snd]
    cases acc.2 <;> cases readSuccessOf it.2 <;> simp

theorem processGroup_snd (name : String) (acc : PollState × Bool)
    (g : GroupOutcome) :
    (processGroup name acc g).2 =
      (acc.2 || (groupStatusSuccess g ||
        (fallbacksOf g).any (fun it => readSuccessOf it.2))) := by
  cases g with
  | success itemData =>
    simp [processGroup, groupStatusSuccess, fallbacksOf]
  | failure fb =>
    unfold processGroup
    rw [fallbackFold_snd]
    simp [groupStatusSuccess, fallbacksOf]
  | raisedExn fb =>
    unfold processGroup
    rw [fallbackFold_snd]
    simp [groupStatusSuccess, fallbacksOf]

theorem groupsFold_snd (name : String) (groups : List GroupOutcome) :
    ∀ (acc : PollState × Bool),
      (groups.foldl (processGroup name) acc).2 =
      (acc.2 || groups.any (fun g => groupStatusSuccess g ||
        (fallbacksOf g).any (fun it => readSuccessOf it.2))) := by
  induction groups with
  | nil => intro acc; simp
  | cons g groups ih =>
    intro acc
    rw [List.foldl_cons, ih]
    simp only [List.any_cons]
    rw [processGroup_snd]
    cases acc.2 <;> cases groupStatusSuccess g <;> simp [Bool.or_assoc]

theorem performCycle_snd (name : String) (st0 : PollState)
    (groups : List GroupOutcome) (singles : List (String × ReadOutcome)) :
    (performCycle name st0 groups singles).2 =
      (groups.any (fun g => groupStatusSuccess g ||
        (fallbacksOf g).any (fun it => readSuccessOf it.2)) ||
       singles.any (fun it => readSuccessOf it.2)) := by
  unfold performCycle
  rw [fallbackFold_snd, groupsFold_snd]
  simp

/-- C9: both the CSV cell and the OPC UA value for the synthetic
HEARTBEAT mapping carry the cycle plc_cycle_ok boolean, and that boolean
is true iff some multiple_read group returned status success or some
individual read (a fallback read of a failed group or a single-read
address) returned status success with data. -/
theorem claim_C9_heartbeat (name ts tag : String) (st0 : PollState)
    (groups : List GroupOutcome) (singles : List (String × ReadOutcome))
    (vals : List (String × Option String)) :
    csvCell ⟨"HEARTBEAT", tag, some "bool"⟩ vals
        (performCycle name st0 groups singles).2 =
      pyBoolStr (performCycle name st0 groups singles).2 ∧
    opcuaValueFor ⟨"HEARTBEAT", tag, some "bool"⟩ vals
        (performCycle name st0 groups singles).2 ts =
      some (.bool (performCycle name st0 groups singles).2) ∧
    ((performCycle name st0 groups singles).2 = true ↔
      (∃ g ∈ groups, groupStatusSuccess g = true) ∨
      (∃ p ∈ individualReads groups singles, readSuccessOf p.2 = true)) := by
  refine ⟨rfl, rfl, ?_⟩
  rw [performCycle_snd]
  simp only [Bool.or_eq_true, List.any_eq_true]
  constructor
  · rintro (⟨g, hg, hgo | ⟨p, hp, hps⟩⟩ | ⟨p, hp, hps⟩)
    · exact Or.inl ⟨g, hg, hgo⟩
    · refine Or.inr ⟨p, ?_, hps⟩
      unfold individualReads
      rw [List.mem_append]
      left
      rw [List.mem_flatten]
      exact ⟨fallbacksOf g, List.mem_map_of_mem fallbacksOf hg, hp⟩
    · refine Or.inr ⟨p, ?_, hps⟩
      unfold individualReads
      rw [List.mem_append]
      exact Or.inr hp
  · rintro (⟨g, hg, hgo⟩ | ⟨p, hp, hps⟩)
    · exact Or.inl ⟨g, hg, Or.inl hgo⟩
    · unfold individualReads at hp
      rw [List.mem_append] at hp
      rcases hp with hp | hp
      · rw [List.mem_flatten] at hp
        obtain ⟨fbl, hfbl, hpfbl⟩ := hp
        rw [List.mem_map] at hfbl
        obtain ⟨g, hg, hgeq⟩ := hfbl
        exact Or.inl ⟨g, hg, Or.inr ⟨p, hgeq ▸ hpfbl, hps⟩⟩
      · exact Or.inr ⟨p, hp, hps⟩


/-- C10: every CSV data row is the timestamp plus exactly one field per
address mapping, in original mapping order, matching the header length;
position i+1 of the row is the cell of mapping i, and a non-HEARTBEAT tag
whose value is missing or None is written as the literal NaN. -/
theorem claim_C10_csv_row (ts : String) (mappings : List AddrMapping)
    (vals : List (String × Option String)) (ok : Bool) :
    (csvRow ts mappings vals ok).length = 1 + mappings.length ∧
    (csvHeader mappings).length = 1 + mappings.length ∧
    (∀ i, i < mappings.length →
      (csvRow ts mappings vals ok).getD (i + 1) "" =
        csvCell (mappings.getD i default) vals ok) ∧
    (∀ i, i < mappings.length →
      (mappings.getD i default).plc_reg_add ≠ "HEARTBEAT" →
      dictGet vals (mappings.getD i default).opcua_reg_add = none →
      (csvRow ts mappings vals ok).getD (i + 1) "" = "NaN") := by
  have hcell : ∀ i, i < mappings.length →
      (csvRow ts mappings vals ok).getD (i + 1) "" =
        csvCell (mappings.getD i default) vals ok := by
    intro i hi
    unfold csvRow
    rw [List.getD_cons_succ]
    rw [List.getD_eq_getElem?_getD, List.getElem?_map]
    rw [List.getElem?_eq_getElem hi]
    simp [List.getD_eq_getElem?_getD, List.getElem?_eq_getElem hi]
  refine ⟨by simp [csvRow]; omega, by simp [csvHeader]; omega, hcell, ?_⟩
  intro i hi hhb hget
  rw [hcell i hi]
  unfold csvCell
  rw [if_neg hhb, hget]

/-- Witness for C10: a one-mapping row with no stored value writes NaN
at position 1. -/
theorem claim_C10_csv_row_witness :
    0 < ([AddrMapping.mk "D1" "t1" (some "int16")] : List AddrMapping).length ∧
    (([AddrMapping.mk "D1" "t1" (some "int16")] : List AddrMapping).getD 0
      default).plc_reg_add ≠ "HEARTBEAT" ∧
    dictGet [] (([AddrMapping.mk "D1" "t1" (some "int16")] : List AddrMapping).getD 0
      default).opcua_reg_add = none ∧
    (csvRow "2024-01-01 00:00:00" [AddrMapping.mk "D1" "t1" (some "int16")] [] true).getD
      1 "" = "NaN" :=
  ⟨by decide, by decide, by decide,
   (claim_C10_csv_row "2024-01-01 00:00:00" [AddrMapping.mk "D1" "t1" (some "int16")]
      [] true).2.2.2 0 (by decide) (by decide) (by decide)⟩



/-! ### Helper lemmas: character classes, digit strings, and concrete
parser evaluations -/

theorem charDigit_toNat (c : Char) (h : c.isDigit = true) :
    48 ≤ c.toNat ∧ c.toNat ≤ 57 := by
  simp only [Char.isDigit, Bool.and_eq_true, decide_eq_true_eq] at h
  obtain ⟨h1, h2⟩ := h
  have h1b : (48 : UInt32) ≤ c.val := h1
  have h2b : c.val ≤ (57 : UInt32) := h2
  rw [UInt32.le_def, BitVec.le_def] at h1b h2b
  exact ⟨h1b, h2b⟩

theorem charDigit_toUpper (c : Char) (h : c.isDigit = true) : c.toUpper = c := by
  have := charDigit_toNat c h
  unfold Char.toUpper
  rw [if_neg]
  omega

theorem charDigit_isDigit_toUpper (c : Char) (h : c.isDigit = true) :
    c.toUpper.isDigit = true := by
  rw [charDigit_toUpper c h]
  exact h

theorem charDigit_ne (c d : Char) (h : c.isDigit = true) (hd : d.isDigit = false) :
    c ≠ d := by
  intro he
  subst he
  rw [h] at hd
  exact absurd hd (by simp)

theorem pyDigits_ne_nil (cs : List Char) (n : Nat) (h : pyDigits cs = some n) :
    cs ≠ [] := by
  intro he
  subst he
  simp [pyDigits] at h

theorem pyDigits_all (cs : List Char) (n : Nat) (h : pyDigits cs = some n) :
    cs.all Char.isDigit = true := by
  unfold pyDigits at h
  by_cases h0 : cs = []
  · rw [if_pos h0] at h; exact absurd h (by simp)
  · rw [if_neg h0] at h
    by_cases h1 : cs.all Char.isDigit = true
    · exact h1
    · rw [if_neg h1] at h; exact absurd h (by simp)

theorem pyInt_of_digits (cs : List Char) (n : Nat) (h : pyDigits cs = some n) :
    pyInt cs = some (n : Int) := by
  have hne := pyDigits_ne_nil cs n h
  have hall := pyDigits_all cs n h
  match cs, hne with
  | c :: rest, _ =>
    have hc : c.isDigit = true := by
      simp only [List.all_cons, Bool.and_eq_true] at hall
      exact hall.1
    have hc1 : c ≠ '-' := charDigit_ne c '-' hc (by decide)
    have hc2 : c ≠ '+' := charDigit_ne c '+' hc (by decide)
    unfold pyInt
    simp only [List.headD_cons]
    rw [if_neg hc1, if_neg hc2, h]
    rfl

theorem digits_no_dot (cs : List Char) (hall : cs.all Char.isDigit = true) :
    cs.contains '.' = false := by
  induction cs with
  | nil => rfl
  | cons c rest ih =>
    simp only [List.all_cons, Bool.and_eq_true] at hall
    have hc : c ≠ '.' := charDigit_ne c '.' hall.1 (by decide)
    simp only [List.contains_cons, Bool.or_eq_false_iff]
    constructor
    · simp
      exact fun he => hc he.symm
    · exact ih hall.2

theorem splitOnDot_cons (c : Char) (rest : List Char) :
    splitOnDot (c :: rest) =
      if c = '.' then [] :: splitOnDot rest
      else
        match splitOnDot rest with
        | [] => [[c]]
        | h :: t => (c :: h) :: t := rfl

theorem splitOnDot_no_dot (cs : List Char) (h : cs.contains '.' = false) :
    splitOnDot cs = [cs] := by
  induction cs with
  | nil => rfl
  | cons c rest ih =>
    simp only [List.contains_cons, Bool.or_eq_false_iff] at h
    have hc : c ≠ '.' := by
      intro he
      subst he
      simp at h
    rw [splitOnDot_cons, ih h.2, if_neg hc]

theorem splitOnDot_append (xs ys : List Char) (h : xs.contains '.' = false) :
    splitOnDot (xs ++ '.' :: ys) = xs :: splitOnDot ys := by
  induction xs with
  | nil =>
    rw [List.nil_append, splitOnDot_cons, if_pos rfl]
  | cons x xs ih =>
    simp only [List.contains_cons, Bool.or_eq_false_iff] at h
    have hx : x ≠ '.' := by
      intro he
      subst he
      simp at h
    rw [List.cons_append, splitOnDot_cons, ih h.2, if_neg hx]

theorem prefixInfo_not_e (c : Char) (rest : List Char) (h : c.toUpper ≠ 'E') :
    getAddressPrefixInfo (c :: rest) = some ([c.toUpper], rest) := by
  unfold getAddressPrefixInfo
  rw [if_neg]
  intro he
  simp only [List.map_cons] at he
  have : (c.toUpper :: (rest.map Char.toUpper)).take 2 =
      c.toUpper :: ((rest.map Char.toUpper).take 1) := rfl
  rw [this] at he
  exact h (List.cons.injEq _ _ _ _ ▸ he).1

theorem prefixInfo_e_digit (c : Char) (rest : List Char) (hc : c.isDigit = true) :
    getAddressPrefixInfo ('E' :: c :: rest) = some (['E'], c :: rest) := by
  have hne : ¬ (('E' :: c :: rest).map Char.toUpper).take 2 = ['E', 'M'] := by
    intro he
    simp only [List.map_cons] at he
    have h2 : ('E'.toUpper :: c.toUpper :: (rest.map Char.toUpper)).take 2 =
        ['E'.toUpper, c.toUpper] := rfl
    rw [h2] at he
    simp only [List.cons.injEq] at he
    have hM : c.toUpper = 'M' := he.2.1
    rw [charDigit_toUpper c hc] at hM
    subst hM
    simp [Char.isDigit] at hc
  unfold getAddressPrefixInfo
  rw [if_neg hne]
  rfl

theorem prefixInfo_em (rest : List Char) :
    getAddressPrefixInfo ('E' :: 'M' :: rest) = some (['E', 'M'], rest) := rfl

/-- Statement-side table: the area and the implicit additive constant the
word parser assigns to each single-letter prefix. -/
def letterWordArea : Char → Option (MemArea × Int)
  | 'D' => some (.dataMemoryWord, 0)
  | 'W' => some (.workWord, 0)
  | 'H' => some (.holdingWord, 0)
  | 'A' => some (.auxiliaryWord, 0)
  | 'Z' => some (.cioWord, 0)
  | 'T' => some (.timerWord, 0)
  | 'C' => some (.counterWord, 2048)
  | _ => none

theorem letterWordArea_ne_e (C : Char) (pr : MemArea × Int)
    (h : letterWordArea C = some pr) : C ≠ 'E' := by
  intro he
  subst he
  simp [letterWordArea] at h

theorem raw_letter_eval (c : Char) (ds : List Char) (n : Nat) (off : Int)
    (area : MemArea) (extra : Int)
    (hA : letterWordArea c.toUpper = some (area, extra))
    (hd : pyDigits ds = some n) :
    parse_address_raw (c :: ds) off = some (area, (n : Int) + extra + off) := by
  have hne : c.toUpper ≠ 'E' := letterWordArea_ne_e _ _ hA
  unfold parse_address_raw
  rw [if_neg (by simp), prefixInfo_not_e c ds hne]
  simp only [pyInt_of_digits ds n hd]
  by_cases hD : c.toUpper = 'D'
  · rw [hD] at hA
    simp only [letterWordArea, Option.some.injEq, Prod.mk.injEq] at hA
    simp [hD, ← hA.1, ← hA.2]
  rw [if_neg (show ¬ ([c.toUpper] : List Char) = ['D'] by simp [hD])]
  by_cases hW : c.toUpper = 'W'
  · rw [hW] at hA
    simp only [letterWordArea, Option.some.injEq, Prod.mk.injEq] at hA
    simp [hW, ← hA.1, ← hA.2]
  rw [if_neg (show ¬ ([c.toUpper] : List Char) = ['W'] by simp [hW])]
  by_cases hH : c.toUpper = 'H'
  · rw [hH] at hA
    simp only [letterWordArea, Option.some.injEq, Prod.mk.injEq] at hA
    simp [hH, ← hA.1, ← hA.2]
  rw [if_neg (show ¬ ([c.toUpper] : List Char) = ['H'] by simp [hH])]
  by_cases hAx : c.toUpper = 'A'
  · rw [hAx] at hA
    simp only [letterWordArea, Option.some.injEq, Prod.mk.injEq] at hA
    simp [hAx, ← hA.1, ← hA.2]
  rw [if_neg (show ¬ ([c.toUpper] : List Char) = ['A'] by simp [hAx])]
  by_cases hZ : c.toUpper = 'Z'
  · rw [hZ] at hA
    simp only [letterWordArea, Option.some.injEq, Prod.mk.injEq] at hA
    simp [hZ, ← hA.1, ← hA.2]
  rw [if_neg (show ¬ ([c.toUpper] : List Char) = ['Z'] by simp [hZ])]
  rw [if_neg (show ¬ ([c.toUpper] : List Char) = ['E'] by simp [hne])]
  rw [if_neg (show ¬ ([c.toUpper] : List Char) = ['E', 'M'] by simp)]
  by_cases hT : c.toUpper = 'T'
  · rw [hT] at hA
    simp only [letterWordArea, Option.some.injEq, Prod.mk.injEq] at hA
    simp [hT, ← hA.1, ← hA.2]
  rw [if_neg (show ¬ ([c.toUpper] : List Char) = ['T'] by simp [hT])]
  by_cases hC : c.toUpper = 'C'
  · rw [hC] at hA
    simp only [letterWordArea, Option.some.injEq, Prod.mk.injEq] at hA
    simp [hC, ← hA.1, ← hA.2]
  rw [if_neg (show ¬ ([c.toUpper] : List Char) = ['C'] by simp [hC])]
  exfalso
  have hnone : letterWordArea c.toUpper = none := by
    unfold letterWordArea
    split <;> simp_all
  rw [hnone] at hA
  exact absurd hA (by simp)

theorem pyDigits_cons_exists (c : Char) (ds : List Char) (n : Nat)
    (hc : c.isDigit = true) (hd : pyDigits ds = some n) :
    ∃ m : Nat, pyDigits (c :: ds) = some m := by
  have hall := pyDigits_all ds n hd
  unfold pyDigits
  rw [if_neg (by simp)]
  rw [if_pos (by simp [List.all_cons, hc, hall])]
  exact ⟨_, rfl⟩

theorem raw_e_eval (c : Char) (ds : List Char) (n : Nat) (off : Int)
    (hc : c.isDigit = true) (hd : pyDigits ds = some n) (hlen : 2 ≤ ds.length) :
    parse_address_raw ('E' :: c :: ds) off =
      some (.emWord (c.toNat - 48), (n : Int) + off) := by
  obtain ⟨m, hm⟩ := pyDigits_cons_exists c ds n hc hd
  unfold parse_address_raw
  rw [if_neg (by simp), prefixInfo_e_digit c ds hc]
  simp only [pyInt_of_digits (c :: ds) m hm]
  rw [if_neg (show ¬ (['E'] : List Char) = ['D'] by simp)]
  rw [if_neg (show ¬ (['E'] : List Char) = ['W'] by simp)]
  rw [if_neg (show ¬ (['E'] : List Char) = ['H'] by simp)]
  rw [if_neg (show ¬ (['E'] : List Char) = ['A'] by simp)]
  rw [if_neg (show ¬ (['E'] : List Char) = ['Z'] by simp)]
  rw [if_pos trivial]
  rw [if_neg (show ¬ (c :: ds).length < 3 by simp; omega)]
  have hbank : emSingleBank c.toUpper = some (c.toNat - 48) := by
    unfold emSingleBank
    rw [charDigit_toUpper c hc, if_pos hc]
  rw [hbank, pyInt_of_digits ds n hd]

theorem raw_em_eval (c2 : Char) (ds : List Char) (n : Nat) (off : Int)
    (h0 : '0' ≤ c2) (h8 : c2 ≤ '8') (hd : pyDigits ds = some n) :
    parse_address_raw ('E' :: 'M' :: '1' :: c2 :: ds) off =
      some (.emWord (10 + (c2.toNat - 48)), (n : Int) + off) := by
  have hc2 : c2.isDigit = true := by
    simp only [Char.isDigit, Bool.and_eq_true, decide_eq_true_eq]
    constructor
    · exact h0
    · have h8v : c2.val ≤ ('8' : Char).val := h8
      rw [UInt32.le_def, BitVec.le_def] at h8v
      show c2.val ≤ (57 : UInt32)
      rw [UInt32.le_def, BitVec.le_def]
      have hlit : ('8' : Char).val.toBitVec.toNat = 56 := by decide
      have hlit2 : ((57 : UInt32)).toBitVec.toNat = 57 := by decide
      rw [hlit] at h8v
      rw [hlit2]
      omega
  have hall := pyDigits_all ds n hd
  have hpart : pyDigits ('1' :: c2 :: ds) = some (pyDigits ('1' :: c2 :: ds)).iget := by
    unfold pyDigits
    rw [if_neg (by simp)]
    rw [if_pos (by simp [List.all_cons, hc2, hall])]
  unfold parse_address_raw
  rw [if_neg (by simp), prefixInfo_em]
  simp only [pyInt_of_digits ('1' :: c2 :: ds) _ hpart]
  rw [if_neg (show ¬ (['E', 'M'] : List Char) = ['D'] by simp)]
  rw [if_neg (show ¬ (['E', 'M'] : List Char) = ['W'] by simp)]
  rw [if_neg (show ¬ (['E', 'M'] : List Char) = ['H'] by simp)]
  rw [if_neg (show ¬ (['E', 'M'] : List Char) = ['A'] by simp)]
  rw [if_neg (show ¬ (['E', 'M'] : List Char) = ['Z'] by simp)]
  rw [if_neg (show ¬ (['E', 'M'] : List Char) = ['E'] by simp)]
  rw [if_pos trivial]
  rw [if_neg (show ¬ ('1' :: c2 :: ds).length < 3 by
    have hne := pyDigits_ne_nil ds n hd
    have hpos : 0 < ds.length := List.length_pos.mpr hne
    simp only [List.length_cons]
    omega)]
  have ht : ('1' :: c2 :: ds).take 2 = ['1', c2] := rfl
  rw [if_pos (show (('1' :: c2 :: ds).take 2).all Char.isDigit = true by
    rw [ht]
    simp [List.all_cons, hc2])]
  have hred : emDoubleBank ['1', c2] =
      (if ('1' : Char) = '1' ∧ '0' ≤ c2 ∧ c2 ≤ '8'
        then some (10 + (c2.toNat - 48)) else none) := rfl
  have hbank : emDoubleBank (('1' :: c2 :: ds).take 2) = some (10 + (c2.toNat - 48)) := by
    rw [ht, hred, if_pos ⟨rfl, h0, h8⟩]
  rw [hbank]
  have hdrop : ('1' :: c2 :: ds).drop 2 = ds := rfl
  rw [hdrop, pyInt_of_digits ds n hd]

theorem raw_counter_bit_eval (ds bs : List Char) (n b : Nat) (off : Int)
    (hd : pyDigits ds = some n) (hb : pyDigits bs = some b) (hble : b ≤ 15) :
    parse_bit_address_raw ('C' :: ds ++ '.' :: bs) off =
      some (.counterFlag, (n : Int) + off, b) := by
  have hnd : ('C' :: ds).contains '.' = false := by
    simp only [List.contains_cons, Bool.or_eq_false_iff]
    exact ⟨by decide, digits_no_dot ds (pyDigits_all ds n hd)⟩
  have hsplit : splitOnDot ('C' :: ds ++ '.' :: bs) = ['C' :: ds, bs] := by
    have h1 := splitOnDot_append ('C' :: ds) bs hnd
    rw [splitOnDot_no_dot bs (digits_no_dot bs (pyDigits_all bs b hb))] at h1
    exact h1
  unfold parse_bit_address_raw
  rw [show ('C' :: ds) ++ '.' :: bs = 'C' :: ds ++ '.' :: bs from rfl] at hsplit
  rw [hsplit]
  simp only [pyInt_of_digits bs b hb]
  rw [if_pos (show 0 ≤ (b : Int) ∧ (b : Int) ≤ 15 by
    constructor
    · positivity
    · exact_mod_cast hble)]
  rw [prefixInfo_not_e 'C' ds (by decide)]
  simp only [pyInt_of_digits ds n hd]
  rw [if_neg (show ¬ (['C'.toUpper] : List Char) = ['D'] by decide)]
  rw [if_neg (show ¬ (['C'.toUpper] : List Char) = ['W'] by decide)]
  rw [if_neg (show ¬ (['C'.toUpper] : List Char) = ['H'] by decide)]
  rw [if_neg (show ¬ (['C'.toUpper] : List Char) = ['A'] by decide)]
  rw [if_neg (show ¬ (['C'.toUpper] : List Char) = ['Z'] by decide)]
  rw [if_neg (show ¬ (['C'.toUpper] : List Char) = ['E'] by decide)]
  rw [if_neg (show ¬ (['C'.toUpper] : List Char) = ['E', 'M'] by decide)]
  rw [if_neg (show ¬ (['C'.toUpper] : List Char) = ['T'] by decide)]
  rw [if_pos (show (['C'.toUpper] : List Char) = ['C'] by decide)]
  simp

theorem parseChars_word_eval (c : Char) (tl : List Char) (off : Int)
    (area : MemArea) (f : Int)
    (hdigit : c.toUpper.isDigit = false)
    (hdot : (c :: tl).contains '.' = false)
    (hraw : parse_address_raw (c :: tl) off = some (area, f))
    (h1 : 0 ≤ f) (h2 : f < 65536) :
    parseChars (c :: tl) off = some ⟨false, area, f.toNat, none⟩ := by
  have hz : zPrefixed (c :: tl) = c :: tl := by
    show (if c.toUpper.isDigit = true then 'Z' :: c :: tl else c :: tl) = c :: tl
    rw [if_neg (by simp [hdigit])]
  unfold parseChars
  rw [hz, hdot]
  simp only [Bool.false_eq_true, if_false]
  unfold parse_address
  rw [hraw, Option.some_bind, toBytes2_some f h1 h2, Option.map_some']

theorem parseChars_bit_eval (c : Char) (tl : List Char) (off : Int)
    (area : MemArea) (f : Int) (b : Nat)
    (hdigit : c.toUpper.isDigit = false)
    (hdot : (c :: tl).contains '.' = true)
    (hraw : parse_bit_address_raw (c :: tl) off = some (area, f, b))
    (h1 : 0 ≤ f) (h2 : f < 65536) :
    parseChars (c :: tl) off = some ⟨true, area, f.toNat, some b⟩ := by
  have hz : zPrefixed (c :: tl) = c :: tl := by
    show (if c.toUpper.isDigit = true then 'Z' :: c :: tl else c :: tl) = c :: tl
    rw [if_neg (by simp [hdigit])]
  unfold parseChars
  rw [hz, hdot]
  simp only [if_true]
  unfold parse_bit_address
  rw [hraw, Option.some_bind, toBytes2_some f h1 h2, Option.map_some']

theorem parseChars_cio_eval (ds : List Char) (off : Int) (n : Nat)
    (hd : pyDigits ds = some n)
    (h1 : 0 ≤ (n : Int) + off) (h2 : (n : Int) + off < 65536) :
    parseChars ds off = some ⟨false, .cioWord, ((n : Int) + off).toNat, none⟩ := by
  have hne := pyDigits_ne_nil ds n hd
  have hall := pyDigits_all ds n hd
  match ds, hne with
  | d :: rest, _ =>
    have hdd : d.isDigit = true := by
      simp only [List.all_cons, Bool.and_eq_true] at hall
      exact hall.1
    have hz : zPrefixed (d :: rest) = 'Z' :: d :: rest := by
      show (if d.toUpper.isDigit = true then 'Z' :: d :: rest else d :: rest) =
        'Z' :: d :: rest
      rw [if_pos (charDigit_isDigit_toUpper d hdd)]
    have hdot : ('Z' :: d :: rest).contains '.' = false := by
      have hrest := digits_no_dot (d :: rest) hall
      simp only [List.contains_cons, Bool.or_eq_false_iff] at hrest ⊢
      exact ⟨by decide, hrest⟩
    unfold parseChars
    rw [hz, hdot]
    simp only [Bool.false_eq_true, if_false]
    unfold parse_address
    rw [raw_letter_eval 'Z' (d :: rest) n off .cioWord 0 (by decide) hd,
      Option.some_bind]
    rw [show (n : Int) + 0 + off = (n : Int) + off by omega]
    rw [toBytes2_some ((n : Int) + off) h1 h2, Option.map_some']

/-- C4 as amended: for every E-prefixed word address whose part after
the E is all decimal digits of length at least 3 (the only E word
addresses the word parser accepts), parse always selects the single-digit
bank named by the first digit, with the remaining digits as the decimal
word offset; the two-digit E bank selection of the claim never happens in
parse (it lives only in the unused _parse_extended_memory helper), so
E10200 parses to bank EM1 word 200, exactly like E1200. -/
theorem claim_C4_single_bank (c : Char) (ds : List Char) (off : Int) (n : Nat)
    (hc : c.isDigit = true) (hd : pyDigits ds = some n) (hlen : 2 ≤ ds.length)
    (h1 : 0 ≤ (n : Int) + off) (h2 : (n : Int) + off < 65536) :
    parseChars ('E' :: c :: ds) off =
      some ⟨false, .emWord (c.toNat - 48), ((n : Int) + off).toNat, none⟩ := by
  have hdot : ('E' :: c :: ds).contains '.' = false := by
    simp only [List.contains_cons, Bool.or_eq_false_iff]
    refine ⟨by decide, ?_, digits_no_dot ds (pyDigits_all ds n hd)⟩
    simp only [beq_eq_false_iff_ne, ne_eq]
    exact fun he => absurd he.symm (charDigit_ne c '.' hc (by decide))
  exact parseChars_word_eval 'E' (c :: ds) off _ _ (by decide) hdot
    (raw_e_eval c ds n off hc hd hlen) h1 h2

theorem letterWordArea_not_digit (C : Char) (pr : MemArea × Int)
    (h : letterWordArea C = some pr) : C.isDigit = false := by
  unfold letterWordArea at h
  split at h <;> first | decide | exact absurd h (by simp)

theorem letterWordArea_ne_dot (c : Char) (pr : MemArea × Int)
    (h : letterWordArea c.toUpper = some pr) : c ≠ '.' := by
  intro he
  subst he
  simp [letterWordArea, Char.toUpper] at h

theorem parseChars_letter_eval (c : Char) (ds : List Char) (off : Int)
    (n : Nat) (area : MemArea)
    (hA : letterWordArea c.toUpper = some (area, 0))
    (hd : pyDigits ds = some n)
    (h1 : 0 ≤ (n : Int) + off) (h2 : (n : Int) + off < 65536) :
    parseChars (c :: ds) off = some ⟨false, area, ((n : Int) + off).toNat, none⟩ := by
  have hdig : c.toUpper.isDigit = false := letterWordArea_not_digit _ _ hA
  have hdot : (c :: ds).contains '.' = false := by
    simp only [List.contains_cons, Bool.or_eq_false_iff]
    refine ⟨?_, digits_no_dot ds (pyDigits_all ds n hd)⟩
    simp only [beq_eq_false_iff_ne, ne_eq]
    exact fun he => absurd he.symm (letterWordArea_ne_dot c _ hA)
  have hraw := raw_letter_eval c ds n off area 0 hA hd
  rw [show (n : Int) + 0 + off = (n : Int) + off by omega] at hraw
  exact parseChars_word_eval c ds off area ((n : Int) + off) hdig hdot hraw h1 h2

/-- C8: a counter word address C(n) parses to word offset n + 0x0800
plus the caller offset, while the counter bit form C(n).b parses to word
offset n with no 0x0800 and the counter completion-flag area; no other
prefix receives the implicit 0x0800: the letter areas D/W/H/A/T, the
bare-digit CIO form, the single-bank E form and the EM form all parse to
the plain decimal offset plus the caller offset. -/
theorem claim_C8_counter_offset (ds : List Char) (off : Int) (n : Nat)
    (hd : pyDigits ds = some n) :
    (0 ≤ (n : Int) + 2048 + off → (n : Int) + 2048 + off < 65536 →
      parseChars ('C' :: ds) off =
        some ⟨false, .counterWord, ((n : Int) + 2048 + off).toNat, none⟩) ∧
    (∀ (bs : List Char) (b : Nat), pyDigits bs = some b → b ≤ 15 →
      0 ≤ (n : Int) + off → (n : Int) + off < 65536 →
      parseChars ('C' :: ds ++ '.' :: bs) off =
        some ⟨true, .counterFlag, ((n : Int) + off).toNat, some b⟩) ∧
    (0 ≤ (n : Int) + off → (n : Int) + off < 65536 →
      (∀ pr ∈ ([('D', MemArea.dataMemoryWord), ('W', .workWord),
                ('H', .holdingWord), ('A', .auxiliaryWord),
                ('T', .timerWord)] : List (Char × MemArea)),
        parseChars (pr.1 :: ds) off =
          some ⟨false, pr.2, ((n : Int) + off).toNat, none⟩) ∧
      parseChars ds off = some ⟨false, .cioWord, ((n : Int) + off).toNat, none⟩ ∧
      (∀ c : Char, c.isDigit = true → 2 ≤ ds.length →
        parseChars ('E' :: c :: ds) off =
          some ⟨false, .emWord (c.toNat - 48), ((n : Int) + off).toNat, none⟩) ∧
      (∀ c2 : Char, '0' ≤ c2 → c2 ≤ '8' →
        parseChars ('E' :: 'M' :: '1' :: c2 :: ds) off =
          some ⟨false, .emWord (10 + (c2.toNat - 48)), ((n : Int) + off).toNat, none⟩)) := by
  have hall := pyDigits_all ds n hd
  have hnodot := digits_no_dot ds hall
  refine ⟨?_, ?_, ?_⟩
  · intro h1 h2
    have hdot : ('C' :: ds).contains '.' = false := by
      simp only [List.contains_cons, Bool.or_eq_false_iff]
      exact ⟨by decide, hnodot⟩
    exact parseChars_word_eval 'C' ds off _ _ (by decide) hdot
      (raw_letter_eval 'C' ds n off .counterWord 2048 (by decide) hd) h1 h2
  · intro bs b hb hble h1 h2
    have hdot : ('C' :: ds ++ '.' :: bs).contains '.' = true := by
      have hm : '.' ∈ 'C' :: ds ++ '.' :: bs := by
        simp [List.mem_append]
      simp at hm
      simp [List.contains_cons, hm]
    exact parseChars_bit_eval 'C' (ds ++ '.' :: bs) off _ _ b (by decide) hdot
      (raw_counter_bit_eval ds bs n b off hd hb hble) h1 h2
  · intro h1 h2
    refine ⟨?_, parseChars_cio_eval ds off n hd h1 h2, ?_, ?_⟩
    · intro pr hpr
      simp only [List.mem_cons, List.not_mem_nil, or_false] at hpr
      rcases hpr with h | h | h | h | h
      all_goals subst h
      · exact parseChars_letter_eval 'D' ds off n _ (by decide) hd h1 h2
      · exact parseChars_letter_eval 'W' ds off n _ (by decide) hd h1 h2
      · exact parseChars_letter_eval 'H' ds off n _ (by decide) hd h1 h2
      · exact parseChars_letter_eval 'A' ds off n _ (by decide) hd h1 h2
      · exact parseChars_letter_eval 'T' ds off n _ (by decide) hd h1 h2
    · intro c hc hlen
      have hdot : ('E' :: c :: ds).contains '.' = false := by
        simp only [List.contains_cons, Bool.or_eq_false_iff]
        refine ⟨by decide, ?_, hnodot⟩
        simp only [beq_eq_false_iff_ne, ne_eq]
        exact fun he => absurd he.symm (charDigit_ne c '.' hc (by decide))
      exact parseChars_word_eval 'E' (c :: ds) off _ _ (by decide) hdot
        (raw_e_eval c ds n off hc hd hlen) h1 h2
    · intro c2 hc0 hc8
      have hc2d : c2.isDigit = true := by
        simp only [Char.isDigit, Bool.and_eq_true, decide_eq_true_eq]
        constructor
        · exact hc0
        · have h8v : c2.val ≤ ('8' : Char).val := hc8
          rw [UInt32.le_def, BitVec.le_def] at h8v
          show c2.val ≤ (57 : UInt32)
          rw [UInt32.le_def, BitVec.le_def]
          have hlit : ('8' : Char).val.toBitVec.toNat = 56 := by decide
          have hlit2 : ((57 : UInt32)).toBitVec.toNat = 57 := by decide
          rw [hlit] at h8v
          rw [hlit2]
          omega
      have hdot : ('E' :: 'M' :: '1' :: c2 :: ds).contains '.' = false := by
        simp only [List.contains_cons, Bool.or_eq_false_iff]
        refine ⟨by decide, by decide, by decide, ?_, hnodot⟩
        simp only [beq_eq_false_iff_ne, ne_eq]
        exact fun he => absurd he.symm (charDigit_ne c2 '.' hc2d (by decide))
      exact parseChars_word_eval 'E' ('M' :: '1' :: c2 :: ds) off _ _ (by decide) hdot
        (raw_em_eval c2 ds n off hc0 hc8 hd) h1 h2

/-- Witness for C8 at C30 and C30.5 with offset 0. -/
theorem claim_C8_counter_offset_witness :
    pyDigits ['3', '0'] = some 30 ∧
    0 ≤ ((30 : Nat) : Int) + 2048 + 0 ∧ ((30 : Nat) : Int) + 2048 + 0 < 65536 ∧
    parseChars ['C', '3', '0'] 0 =
      some ⟨false, .counterWord, (((30 : Nat) : Int) + 2048 + 0).toNat, none⟩ ∧
    parseChars ['C', '3', '0', '.', '5'] 0 =
      some ⟨true, .counterFlag, (((30 : Nat) : Int) + 0).toNat, some 5⟩ :=
  ⟨by decide, by decide, by decide,
   (claim_C8_counter_offset ['3', '0'] 0 30 (by decide)).1 (by decide) (by decide),
   (claim_C8_counter_offset ['3', '0'] 0 30 (by decide)).2.1 ['5'] 5
     (by decide) (by decide) (by decide) (by decide)⟩

/-- Witness for C4 (amended) at E10200. -/
theorem claim_C4_single_bank_witness :
    ('1' : Char).isDigit = true ∧ pyDigits ['0', '2', '0', '0'] = some 200 ∧
    2 ≤ (['0', '2', '0', '0'] : List Char).length ∧
    0 ≤ ((200 : Nat) : Int) + 0 ∧ ((200 : Nat) : Int) + 0 < 65536 ∧
    parseChars ['E', '1', '0', '2', '0', '0'] 0 =
      some ⟨false, .emWord ('1'.toNat - 48), (((200 : Nat) : Int) + 0).toNat, none⟩ :=
  ⟨by decide, by decide, by decide, by decide, by decide,
   claim_C4_single_bank '1' ['0', '2', '0', '0'] 0 200
     (by decide) (by decide) (by decide) (by decide) (by decide)⟩


end FinsSpec
